import Mathlib

/-!
Verification of the `goldmark-formatter` Markdown renderer.

This file is a shallow embedding of the renderer in `render.go` (the
`Render` function and its helpers, together with `renderAttributes` from
`renderer.go`), and proofs of the specification's claims about it.

Text is modelled as a sequence of runes (`List Char`).  The Go code works
on bytes, but every byte it inspects individually is an ASCII byte
(`'\n'`, `'>'`, `'&'`, `';'`, letters), and in UTF-8 an ASCII byte never
occurs inside a multi-byte rune, so byte tests and rune tests coincide;
all width computations in the source are explicitly rune counts
(`utf8.RuneCount`), which is `List.length` here.
-/

namespace Formatter

/-- Text: a sequence of runes. -/
abbrev Str := List Char

/-- Concatenation of a list of strings (`bytes.Buffer` accumulation). -/
def concatStrs (l : List Str) : Str := l.foldr (fun a b => a ++ b) []

/-- Go `strings.Join` with a separator. -/
def joinSep (sep : Str) : List Str → Str
  | [] => []
  | [x] => x
  | x :: y :: xs => x ++ sep ++ joinSep sep (y :: xs)

/-- Go `unicode.IsSpace` (the white-space set used by `bytes.TrimSpace`
and `bytes.Fields`). -/
def isUniSpace (c : Char) : Bool :=
  c == ' ' || c == '\t' || c == '\n' || c.toNat == 11 || c.toNat == 12 || c == '\r' ||
    c.toNat == 0x85 || c.toNat == 0xA0 || c.toNat == 0x1680 ||
    (decide (0x2000 ≤ c.toNat) && decide (c.toNat ≤ 0x200A)) ||
    c.toNat == 0x2028 || c.toNat == 0x2029 ||
    c.toNat == 0x202F || c.toNat == 0x205F || c.toNat == 0x3000

/-- goldmark `util.IsSpace` (ASCII white space), used by
`util.TrimRightSpace`. -/
def isGmSpace (c : Char) : Bool :=
  c == ' ' || c == '\t' || c == '\n' || c.toNat == 11 || c.toNat == 12 || c == '\r'

/-- Drop characters satisfying `p` from the right end. -/
def trimRightBy (p : Char → Bool) (s : Str) : Str := (s.reverse.dropWhile p).reverse

/-- goldmark `util.TrimRightSpace`. -/
def trimRightSpaceGm (s : Str) : Str := trimRightBy isGmSpace s

/-- Go `bytes.TrimSpace`. -/
def trimSpaceUni (s : Str) : Str := (trimRightBy isUniSpace s).dropWhile isUniSpace

/-- Go `bytes.SplitAfter(text, []byte{'\n'})`: split after every newline,
keeping the terminators; `SplitAfter("", sep) = [""]`. -/
def splitAfterNl : Str → List Str
  | [] => [[]]
  | c :: rest =>
    if c = '\n' then [c] :: splitAfterNl rest
    else
      match splitAfterNl rest with
      | [] => [[c]]
      | l :: ls => (c :: l) :: ls

/-- Accumulator loop for `fields`. -/
def fieldsGo (acc : Str) : Str → List Str
  | [] => if acc = [] then [] else [acc.reverse]
  | c :: rest =>
    if isUniSpace c then
      if acc = [] then fieldsGo [] rest else acc.reverse :: fieldsGo [] rest
    else fieldsGo (c :: acc) rest

/-- Go `bytes.Fields`: maximal runs of non-space characters. -/
def fields (s : Str) : List Str := fieldsGo [] s

/-- Decimal rendering of a natural number (`fmt.Fprintf` `%d`). -/
def natDec (n : Nat) : Str := (toString n).data

/-- Go `%q` escaping, faithful for the characters occurring in this
development; `fmt` additionally escapes control and non-printable
characters, which never appear in attribute names, values or titles here. -/
def goQuoteChar (c : Char) : Str :=
  if c = '"' then ['\\', '"']
  else if c = '\\' then ['\\', '\\']
  else if c = '\n' then ['\\', 'n']
  else if c = '\t' then ['\\', 't']
  else if c = '\r' then ['\\', 'r']
  else [c]

/-- Go `fmt.Sprintf("%q", s)`. -/
def goQuote (s : Str) : Str := '"' :: concatStrs (s.map goQuoteChar) ++ ['"']

/-- Attribute sets, in goldmark's insertion order. -/
abbrev Attrs := List (Str × Str)

/-- Key of the `id` attribute. -/
def idKey : Str := "id".data

/-- Key of the `class` attribute. -/
def classKey : Str := "class".data

/-- goldmark `node.AttributeString`: first attribute with the given name. -/
def attributeString (attrs : Attrs) (name : Str) : Option Str :=
  (attrs.find? (fun a => a.1 == name)).map (fun a => a.2)

/-- The `writeAttributes` closure from `render.go`: `#id` token, `.class`
tokens, then `name="value" ` tokens (each with a trailing space, as in the
source), joined by `strings.Join(attrs, " ")` and wrapped in braces; nothing
is emitted for an empty attribute set. -/
def writeAttributesStr (attrs : Attrs) : Str :=
  if attrs.length = 0 then [] else
  let idToks : List Str :=
    match attributeString attrs idKey with
    | some v => ['#' :: v]
    | none => []
  let classToks : List Str :=
    match attributeString attrs classKey with
    | some v => (fields v).map (fun w => '.' :: w)
    | none => []
  let otherToks : List Str :=
    (attrs.filter (fun a => !(a.1 == idKey) && !(a.1 == classKey))).map
      (fun a => a.1 ++ '=' :: goQuote a.2 ++ [' '])
  ('\x7b' :: joinSep [' '] (idToks ++ classToks ++ otherToks)) ++ ['\x7d']

/-- The `renderAttributes` helper from `renderer.go`: every token is written
to a scratch buffer with a trailing space, and the whole buffer is
right-trimmed (`util.TrimRightSpace`) before being wrapped in braces. -/
def renderAttributesStr (attrs : Attrs) : Str :=
  let buf : Str :=
    (match attributeString attrs idKey with
      | some v => '#' :: v ++ [' ']
      | none => []) ++
    (match attributeString attrs classKey with
      | some v => concatStrs ((fields v).map (fun w => '.' :: w ++ [' ']))
      | none => []) ++
    concatStrs ((attrs.filter (fun a => !(a.1 == idKey) && !(a.1 == classKey))).map
      (fun a => a.1 ++ '=' :: goQuote a.2 ++ [' ']))
  ('\x7b' :: trimRightSpaceGm buf) ++ ['\x7d']

/-- Attribute block exactly as the specification words it (claim C5):
`#id` if present, one `.class` token per whitespace-separated class word,
`name="value"` for every remaining attribute, tokens joined by single
spaces, any trailing space before the closing brace trimmed.  This
definition follows the spec's words, for comparison with the two
code-derived functions above. -/
def attrBlockSpec (attrs : Attrs) : Str :=
  let idToks : List Str :=
    match attributeString attrs idKey with
    | some v => ['#' :: v]
    | none => []
  let classToks : List Str :=
    match attributeString attrs classKey with
    | some v => (fields v).map (fun w => '.' :: w)
    | none => []
  let otherToks : List Str :=
    (attrs.filter (fun a => !(a.1 == idKey) && !(a.1 == classKey))).map
      (fun a => a.1 ++ '=' :: goQuote a.2)
  ('\x7b' :: trimRightSpaceGm (joinSep [' '] (idToks ++ classToks ++ otherToks))) ++ ['\x7d']

/-- ASCII letter, the `[[:alpha:]]` POSIX class of the Go regexp package. -/
def isAsciiAlpha (c : Char) : Bool :=
  (decide ('a' ≤ c) && decide (c ≤ 'z')) || (decide ('A' ≤ c) && decide (c ≤ 'Z'))

/-- Entity replacement tables (`EntityReplacement` in `render.go`). -/
abbrev EntTable := List (Str × Str)

/-- Map lookup in a replacement table. -/
def entLookup (table : EntTable) (k : Str) : Option Str :=
  (table.find? (fun p => p.1 == k)).map (fun p => p.2)

/-- `reHTMLEntity.ReplaceAllFunc` from `render.go` with the regexp
`&[[:alpha:]]{5,6};`: scan left to right; at each `&` try the greedy
six-letter reference first, then the five-letter one; a match found in the
table is replaced by its value, a match missing from the table passes
through unchanged, and scanning resumes after the match. -/
def replaceEntities (table : EntTable) : Str → Str
  | [] => []
  | c :: rest =>
    if c = '&' ∧ (rest.take 6).length = 6 ∧ (rest.take 6).all isAsciiAlpha ∧
        rest[6]? = some ';' then
      (match entLookup table ('&' :: rest.take 6 ++ [';']) with
        | some v => v
        | none => '&' :: rest.take 6 ++ [';']) ++ replaceEntities table (rest.drop 7)
    else if c = '&' ∧ (rest.take 5).length = 5 ∧ (rest.take 5).all isAsciiAlpha ∧
        rest[5]? = some ';' then
      (match entLookup table ('&' :: rest.take 5 ++ [';']) with
        | some v => v
        | none => '&' :: rest.take 5 ++ [';']) ++ replaceEntities table (rest.drop 6)
    else c :: replaceEntities table rest
termination_by s => s.length
decreasing_by all_goals (simp; try omega)

/-- The default `EntityReplacement` map of `render.go`. -/
def defaultEntityReplacement : EntTable :=
  [("&ldquo;".data, "\"".data), ("&rdquo;".data, "\"".data),
   ("&laquo;".data, "\"".data), ("&raquo;".data, "\"".data),
   ("&lsquo;".data, "\x27".data), ("&rsquo;".data, "\x27".data),
   ("&ndash;".data, "--".data), ("&mdash;".data, "---".data),
   ("&hellip;".data, "...".data)]

/-- The package-level format settings of `render.go`. -/
structure Settings where
  SkipHTML : Bool
  STXHeader : Bool
  LineBreak : Bool
  UseListMarker : Bool
  FencedCodeBlock : Str
  ThematicBreak : Str
  EntityReplacement : EntTable

/-- Default values of the format settings in `render.go`. -/
def defaultSettings : Settings :=
  { SkipHTML := false
    STXHeader := true
    LineBreak := false
    UseListMarker := true
    FencedCodeBlock := "```".data
    ThematicBreak := "----".data
    EntityReplacement := defaultEntityReplacement }

/-- Table column alignment (`east.Alignment`); `none` is `AlignNone`,
the `default` arm of the source's switches. -/
inductive Align where
  | left
  | right
  | center
  | none
deriving DecidableEq, Repr

/-- The goldmark node tree, restricted to the node kinds this development
reasons about.  Children are ordered; goldmark nodes also carry real
sibling links, which the embedding recovers from the position of a node in
its parent's child list. -/
inductive Node where
  | document (meta : List (Str × Str)) (children : List Node)
  | heading (level : Nat) (attrs : Attrs) (srcLines : List Str) (children : List Node)
  | blockquote (attrs : Attrs) (children : List Node)
  | fencedCodeBlock (info : Option Str) (attrs : Attrs) (srcLines : List Str)
  | thematicBreak (attrs : Attrs)
  | list (marker : Char) (start : Nat) (isTight : Bool) (children : List Node)
  | listItem (children : List Node)
  | paragraph (attrs : Attrs) (children : List Node)
  | textBlock (children : List Node)
  | autoLink (label : Str)
  | codeSpan (children : List Node)
  | emphasis (level : Nat) (children : List Node)
  | link (dest : Str) (title : Option Str) (attrs : Attrs) (children : List Node)
  | rawHTML (segments : List Str)
  | text (seg : Str) (soft : Bool) (hard : Bool)
  | strNode (value : Str) (isCode : Bool)
  | table (alignments : List Align) (attrs : Attrs) (children : List Node)
  | tableRow (children : List Node)
  | tableCell (children : List Node)

/-- goldmark `node.FirstChild()`/`NextSibling()` iteration: the ordered
child list of a node. -/
def Node.children : Node → List Node
  | .document _ cs => cs
  | .heading _ _ _ cs => cs
  | .blockquote _ cs => cs
  | .fencedCodeBlock _ _ _ => []
  | .thematicBreak _ => []
  | .list _ _ _ cs => cs
  | .listItem cs => cs
  | .paragraph _ cs => cs
  | .textBlock cs => cs
  | .autoLink _ => []
  | .codeSpan cs => cs
  | .emphasis _ cs => cs
  | .link _ _ _ cs => cs
  | .rawHTML _ => []
  | .text _ _ _ => []
  | .strNode _ _ => []
  | .table _ _ cs => cs
  | .tableRow cs => cs
  | .tableCell cs => cs

/-- Whether a node is a `TextBlock` (the `Paragraph` case's
`PreviousSibling` test). -/
def Node.isTextBlockNode : Node → Bool
  | .textBlock _ => true
  | _ => false

theorem Node.sizeOf_children_le (n : Node) : sizeOf n.children ≤ sizeOf n := by
  cases n <;> simp [Node.children] <;> omega

/-- goldmark `List.IsOrdered`: the list marker is `.` or `)`. -/
def isOrderedMarker (m : Char) : Bool := m == '.' || m == ')'

/-- Generic concatenation. -/
def concatL {α : Type} (l : List (List α)) : List α := l.foldr (fun a b => a ++ b) []

/-- One write call (`write`/`fmt.Fprintf`) or one call of the external
metadata encoder, in the order `Render` performs them. -/
inductive WEvent where
  | str (s : Str)
  | yaml (meta : List (Str × Str))

/-- Modelled from the spec: the external structured-data (YAML) encoder is
out of scope (§1, §6) and treated as an opaque "write this mapping as a
metadata block" service; this stand-in writes one `key: value` line per
entry.  No claim depends on the encoded bytes themselves. -/
def yamlEncode (meta : List (Str × Str)) : Str :=
  concatL (meta.map (fun p => p.1 ++ ": ".data ++ p.2 ++ ['\n']))

/-- Bytes a write event contributes on an error-free sink. -/
def eventStr : WEvent → Str
  | .str sval => sval
  | .yaml m => yamlEncode m

/-- Bytes a write sequence contributes on an error-free sink (also the
contents a nested `Render(&buf, ...)` call accumulates: writes into a
`bytes.Buffer` never fail). -/
def eventsStr (es : List WEvent) : Str := concatL (es.map eventStr)

/-- Guarded attribute emission: `writeAttributes` writes nothing for an
empty attribute set (its early return). -/
def writeAttrEvents (attrs : Attrs) : List WEvent :=
  if attrs.length = 0 then [] else [.str (writeAttributesStr attrs)]

/-- One table cell of pass 2 (`write("| %s%s ", ...)` in the `Table` case):
`"| "`, the cell padded to width `w` by its alignment, and a trailing
space.  `indent[:len(indent)/2]` slices an all-space ASCII string, so byte
and rune indices agree. -/
def cellSegment (a : Align) (w : Nat) (cell : Str) : Str :=
  let indent : Str := List.replicate (w - cell.length) ' '
  match a with
  | .right => "| ".data ++ indent ++ cell ++ [' ']
  | .center => "| ".data ++ indent.take (indent.length / 2) ++ cell ++
      indent.drop (indent.length / 2) ++ [' ']
  | _ => "| ".data ++ cell ++ indent ++ [' ']

/-- Pass 1 inner loop: bump the per-column maxima with one row's cell rune
counts (`if l := utf8.RuneCountInString(text); l > columns[column]`). -/
def rowBump : List Nat → Nat → List Str → List Nat
  | cols, _, [] => cols
  | cols, j, c :: cs =>
    rowBump (if cols.getD j 0 < c.length then cols.set j c.length else cols) (j + 1) cs

/-- Pass 1: per-column maximum cell rune counts, starting from
`make([]int, len(n.Alignments))`. -/
def tableColumns (alignments : List Align) (rows : List (List Str)) : List Nat :=
  rows.foldl (fun cols row => rowBump cols 0 row) (List.replicate alignments.length 0)

/-- Pass 2 cell writes of one row, one event per cell. -/
def rowCellEvents (alignments : List Align) (cols : List Nat) : Nat → List Str → List WEvent
  | _, [] => []
  | j, c :: cs =>
    .str (cellSegment (alignments.getD j .none) (cols.getD j 0) c) ::
      rowCellEvents alignments cols (j + 1) cs

/-- Header divider writes, one event per column, encoding alignment in the
`:` markers. -/
def dividerEvents (cols : List Nat) : Nat → List Align → List WEvent
  | _, [] => []
  | j, a :: rest =>
    (match a with
      | .left => WEvent.str ("|:".data ++ List.replicate (cols.getD j 0 + 1) '-')
      | .right => WEvent.str ('|' :: List.replicate (cols.getD j 0 + 1) '-' ++ [':'])
      | .center => WEvent.str ("|:".data ++ List.replicate (cols.getD j 0) '-' ++ [':'])
      | .none => WEvent.str ('|' :: List.replicate (cols.getD j 0 + 2) '-')) ::
      dividerEvents cols (j + 1) rest

/-- Pass 2: all rows; after the first (header) row the divider row is
emitted. -/
def tableEvents (alignments : List Align) (cols : List Nat) : List (List Str) → List WEvent
  | [] => []
  | r0 :: rest =>
    rowCellEvents alignments cols 0 r0 ++ [.str "|\n".data] ++
      dividerEvents cols 0 alignments ++ [.str "|\n".data] ++
      concatL (rest.map (fun r => rowCellEvents alignments cols 0 r ++ [.str "|\n".data]))

/-- Blockquote line writes: `>`, a space unless the line already starts
with `>` or has no content before its terminator, then the line. -/
def bqLineEvents (lines : List Str) : List WEvent :=
  concatL (lines.map (fun l =>
    [WEvent.str ['>']] ++
    (if l ≠ [] ∧ l.head? ≠ some '>' ∧ l.head? ≠ some '\n' then [WEvent.str [' ']] else []) ++
    [WEvent.str l]))

/-- List-item / continuation line writes: every line after the first that
has content before its terminator is preceded by the indent. -/
def itemLineEvents (indent : Str) : Nat → List Str → List WEvent
  | _, [] => []
  | i, l :: ls =>
    (if 0 < i ∧ l ≠ [] ∧ l.head? ≠ some '\n' then [WEvent.str indent] else []) ++
      WEvent.str l :: itemLineEvents indent (i + 1) ls

mutual

/-- The write sequence `Render` in `render.go` performs for one node: entry
writes, the children's writes unless the case skips them (blockquote, list,
table and the leaf cases render or consume their subtree themselves), then
exit writes (`ast.Walk` visits the exit hook even after `WalkSkipChildren`).
`pb` says whether the node's previous sibling is a `TextBlock`, `hn`
whether it has a next sibling; goldmark nodes answer these from their real
sibling links, which the embedding supplies from list positions. -/
def writesNode (s : Settings) (pb hn : Bool) : Node → List WEvent
  | .document meta cs =>
    (if meta.length ≠ 0 then
      [.str "---\n".data, .yaml meta, .str "---\n".data] else []) ++ writesList s none cs
  | .heading level attrs srcLines cs =>
    (if ¬s.STXHeader ∨ 2 < level then [.str (List.replicate level '#' ++ [' '])] else []) ++
    writesList s none cs ++
    (if attrs.length ≠ 0 then [.str [' '], .str (writeAttributesStr attrs)] else []) ++
    (if s.STXHeader ∧ level < 3 then
      [.str ['\n'],
       .str (List.replicate
         (if s.LineBreak then ((srcLines.getLast?).getD []).length
          else srcLines.foldl (fun acc l => acc + (trimRightSpaceGm l).length) 0)
         (if level = 2 then '-' else '='))]
     else []) ++
    [.str "\n\n".data]
  | .blockquote attrs cs =>
    bqLineEvents (splitAfterNl (trimSpaceUni (eventsStr (writesList s none cs)))) ++
    (if attrs.length ≠ 0 then [.str ['\n'], .str (writeAttributesStr attrs)] else []) ++
    [.str "\n\n".data]
  | .fencedCodeBlock info attrs srcLines =>
    [.str s.FencedCodeBlock] ++
    (match info with | some i => [WEvent.str i] | none => []) ++
    [.str ['\n']] ++ srcLines.map WEvent.str ++ [.str s.FencedCodeBlock] ++
    (if attrs.length ≠ 0 then [.str ['\n'], .str (writeAttributesStr attrs)] else []) ++
    [.str "\n\n".data]
  | .thematicBreak attrs =>
    [.str s.ThematicBreak] ++
    (if attrs.length ≠ 0 then [.str (writeAttributesStr attrs), .str ['\n']] else []) ++
    [.str "\n\n".data]
  | .list marker start isTight cs =>
    writesItems s marker (isOrderedMarker marker) isTight
      (if isOrderedMarker marker then "   ".data else "  ".data)
      (if start = 0 then 1 else start) cs ++
    (if isTight then [WEvent.str ['\n']] else [])
  | .listItem cs => writesList s none cs
  | .paragraph attrs cs =>
    (if pb then [WEvent.str ['\n']] else []) ++ writesList s none cs ++
    (if attrs.length ≠ 0 then [.str ['\n'], .str (writeAttributesStr attrs)] else []) ++
    [.str "\n\n".data]
  | .textBlock cs =>
    writesList s none cs ++ (if hn ∧ cs.length ≠ 0 then [WEvent.str ['\n']] else [])
  | .autoLink label => [.str ('<' :: label ++ ['>'])]
  | .codeSpan cs => [.str "`".data] ++ writesList s none cs ++ [.str "`".data]
  | .emphasis level cs =>
    [.str (if level = 1 then "_".data else "**".data)] ++ writesList s none cs ++
      [.str (if level = 1 then "_".data else "**".data)]
  | .link dest title attrs cs =>
    [.str "[".data] ++ writesList s none cs ++
    [.str ("](".data ++ dest)] ++
    (match title with | some t => [WEvent.str (' ' :: goQuote t)] | none => []) ++
    [.str ")".data] ++ writeAttrEvents attrs
  | .rawHTML segments => if s.SkipHTML then [] else segments.map WEvent.str
  | .text seg soft hard =>
    [.str seg] ++
    (if soft then
      [if hard then WEvent.str "\\\n".data
       else if s.LineBreak then WEvent.str ['\n'] else WEvent.str [' ']]
     else [])
  | .strNode value isCode =>
    [.str (if isCode ∧ s.EntityReplacement.length ≠ 0
      then replaceEntities s.EntityReplacement value else value)]
  | .table alignments attrs cs =>
    tableEvents alignments (tableColumns alignments (collectRows s cs)) (collectRows s cs) ++
    (if attrs.length ≠ 0 then [.str (writeAttributesStr attrs), .str ['\n']] else []) ++
    [.str ['\n']]
  | .tableRow cs => writesList s none cs
  | .tableCell cs => writesList s none cs
termination_by n => sizeOf n
decreasing_by
  all_goals simp_wf
  all_goals first
    | omega
    | exact Nat.lt_of_le_of_lt (Node.sizeOf_children_le _) (by omega)

/-- Walk of a sibling list, threading the real previous sibling (for the
`Paragraph` case) and next-sibling existence (for the `TextBlock` case). -/
def writesList (s : Settings) : Option Node → List Node → List WEvent
  | _, [] => []
  | prev, c :: rest =>
    writesNode s (match prev with | some p => p.isTextBlockNode | none => false)
      (!rest.isEmpty) c ++ writesList s (some c) rest
termination_by _ ns => sizeOf ns
decreasing_by
  all_goals simp_wf
  all_goals first
    | omega
    | exact Nat.lt_of_le_of_lt (Node.sizeOf_children_le _) (by omega)

/-- The `List` case's item loop: number and marker, the item's children
pre-rendered into a scratch buffer, trimmed, split and re-indented, a
newline, and a blank line after each item of a loose list. -/
def writesItems (s : Settings) (marker : Char) (ordered isTight : Bool) (indent : Str) :
    Nat → List Node → List WEvent
  | _, [] => []
  | num, it :: rest =>
    (if ordered then [WEvent.str (natDec num)] else []) ++
    [(if s.UseListMarker then WEvent.str [marker, ' ']
      else if ordered then WEvent.str ". ".data else WEvent.str "- ".data)] ++
    itemLineEvents indent 0
      (splitAfterNl (trimSpaceUni (eventsStr (writesList s none it.children)))) ++
    [.str ['\n']] ++ (if ¬isTight then [WEvent.str ['\n']] else []) ++
    writesItems s marker ordered isTight indent (num + 1) rest
termination_by _ ns => sizeOf ns
decreasing_by
  all_goals simp_wf
  all_goals first
    | omega
    | exact Nat.lt_of_le_of_lt (Node.sizeOf_children_le _) (by omega)

/-- Pass 1 of the `Table` case, outer loop: pre-rendered cell texts of
every row. -/
def collectRows (s : Settings) : List Node → List (List Str)
  | [] => []
  | row :: rest => collectCells s row.children :: collectRows s rest
termination_by ns => sizeOf ns
decreasing_by
  all_goals simp_wf
  all_goals first
    | omega
    | exact Nat.lt_of_le_of_lt (Node.sizeOf_children_le _) (by omega)

/-- Pass 1 of the `Table` case, inner loop: each cell's children rendered
into the scratch buffer. -/
def collectCells (s : Settings) : List Node → List Str
  | [] => []
  | cell :: rest => eventsStr (writesList s none cell.children) :: collectCells s rest
termination_by ns => sizeOf ns
decreasing_by
  all_goals simp_wf
  all_goals first
    | omega
    | exact Nat.lt_of_le_of_lt (Node.sizeOf_children_le _) (by omega)

end

/-- All bytes `Render(w, source, node)` emits on an error-free sink (a
node rendered at top level has no previous or next sibling). -/
def render (s : Settings) (n : Node) : Str := eventsStr (writesNode s false false n)

/-- Bytes emitted for a sibling list, e.g. the contents of the scratch
buffer a blockquote, list item or table cell pre-renders its children
into. -/
def renderSeq (s : Settings) (cs : List Node) : Str := eventsStr (writesList s none cs)

/-- Output sinks: `sink k` says whether the sink accepts a write arriving
after `k` bytes have been accepted.  An error-free sink answers `true`
everywhere. -/
abbrev Sink := Nat → Bool

/-- External YAML encoders as the Document case uses them; encoding may
fail (`enc.Encode(meta)` returning non-nil). -/
abbrev Enc := List (Str × Str) → Except Str Str

/-- Error value standing for the sink's write error (the error the `write`
helper panics with and `Render`'s recover returns). -/
def writeErr : Str := "write error".data

/-- Feeding the write sequence to a sink, mirroring the `write` helper and
panic/recover of `render.go`: the first failing write — or a failing
metadata encoding — aborts the remaining walk, the failure becomes the
single returned error, and bytes already accepted stay written.  (The Go
code interleaves walking and writing, but no write result other than an
aborting error ever influences the walk, so running the write sequence in
order is the same computation.) -/
def runW (sink : Sink) (enc : Enc) : List WEvent → Str → Str × Option Str
  | [], out => (out, none)
  | .str sval :: es, out =>
    if sink out.length then runW sink enc es (out ++ sval) else (out, some writeErr)
  | .yaml m :: es, out =>
    match enc m with
    | .error e => (out, some e)
    | .ok sval =>
      if sink out.length then runW sink enc es (out ++ sval) else (out, some writeErr)

@[simp]
theorem concatL_nil {α : Type} : concatL ([] : List (List α)) = [] := rfl

@[simp]
theorem concatL_cons {α : Type} (x : List α) (xs : List (List α)) :
    concatL (x :: xs) = x ++ concatL xs := rfl

theorem concatL_append {α : Type} (a b : List (List α)) :
    concatL (a ++ b) = concatL a ++ concatL b := by
  induction a with
  | nil => simp
  | cons x xs ih => simp [ih]

@[simp]
theorem eventsStr_nil : eventsStr [] = [] := rfl

@[simp]
theorem eventsStr_cons (e : WEvent) (es : List WEvent) :
    eventsStr (e :: es) = eventStr e ++ eventsStr es := rfl

theorem eventsStr_append (a b : List WEvent) :
    eventsStr (a ++ b) = eventsStr a ++ eventsStr b := by
  simp [eventsStr, concatL_append]

theorem runW_append_err (sink : Sink) (enc : Enc) (es1 es2 : List WEvent) (out o e : Str)
    (h : runW sink enc es1 out = (o, some e)) :
    runW sink enc (es1 ++ es2) out = (o, some e) := by
  induction es1 generalizing out with
  | nil => simp [runW] at h
  | cons ev es ih =>
    cases ev with
    | str sval =>
      simp only [runW, List.cons_append] at h ⊢
      by_cases hs : sink out.length
      · simp only [hs, if_true] at h ⊢; exact ih _ h
      · simp only [hs, if_false] at h ⊢; exact h
    | yaml m =>
      simp only [runW, List.cons_append] at h ⊢
      cases he : enc m with
      | error e2 => simp only [he] at h ⊢; exact h
      | ok sval =>
        simp only [he] at h ⊢
        by_cases hs : sink out.length
        · simp only [hs, if_true] at h ⊢; exact ih _ h
        · simp only [hs, if_false] at h ⊢; exact h

theorem runW_append_ok (sink : Sink) (enc : Enc) (es1 es2 : List WEvent) (out o : Str)
    (h : runW sink enc es1 out = (o, none)) :
    runW sink enc (es1 ++ es2) out = runW sink enc es2 o := by
  induction es1 generalizing out with
  | nil => simp [runW] at h; simp [h]
  | cons ev es ih =>
    cases ev with
    | str sval =>
      simp only [runW, List.cons_append] at h ⊢
      by_cases hs : sink out.length
      · simp only [hs, if_true] at h ⊢; exact ih _ h
      · simp only [hs, if_false] at h; exact absurd h (by simp)
    | yaml m =>
      simp only [runW, List.cons_append] at h ⊢
      cases he : enc m with
      | error e2 => simp only [he] at h; exact absurd h (by simp)
      | ok sval =>
        simp only [he] at h ⊢
        by_cases hs : sink out.length
        · simp only [hs, if_true] at h ⊢; exact ih _ h
        · simp only [hs, if_false] at h; exact absurd h (by simp)

theorem runW_extends (sink : Sink) (enc : Enc) :
    ∀ (es : List WEvent) (out : Str), ∃ t, (runW sink enc es out).1 = out ++ t := by
  intro es
  induction es with
  | nil => intro out; exact ⟨[], by simp [runW]⟩
  | cons ev es ih =>
    intro out
    cases ev with
    | str sval =>
      by_cases hs : sink out.length
      · obtain ⟨t, ht⟩ := ih (out ++ sval)
        exact ⟨sval ++ t, by simp [runW, hs, ht]⟩
      · exact ⟨[], by simp [runW, hs]⟩
    | yaml m =>
      cases he : enc m with
      | error e2 => exact ⟨[], by simp [runW, he]⟩
      | ok sval =>
        by_cases hs : sink out.length
        · obtain ⟨t, ht⟩ := ih (out ++ sval)
          exact ⟨sval ++ t, by simp [runW, he, hs, ht]⟩
        · exact ⟨[], by simp [runW, he, hs]⟩

theorem runW_all_ok (sink : Sink) (enc : Enc) (hsink : ∀ k, sink k = true)
    (henc : ∀ m, enc m = Except.ok (yamlEncode m)) :
    ∀ (es : List WEvent) (out : Str), runW sink enc es out = (out ++ eventsStr es, none) := by
  intro es
  induction es with
  | nil => intro out; simp [runW]
  | cons ev es ih =>
    intro out
    cases ev with
    | str sval => simp [runW, hsink, ih, eventStr, List.append_assoc]
    | yaml m => simp [runW, henc, hsink, ih, eventStr, List.append_assoc]

/-- Claim C2: in `Render(w, source, node)`, a failing write to the sink, or
a failing metadata (YAML) encoding, aborts the walk at once — the remaining
siblings contribute no events, no further bytes reach the sink, the failure
is the single returned error, and bytes already accepted are kept (the
final output extends what was already written). -/
theorem c2_write_failure_aborts (s : Settings) (sink : Sink) (enc : Enc)
    (c : Node) (rest : List Node) (out fail e : Str)
    (h : runW sink enc (writesNode s false (!rest.isEmpty) c) out = (fail, some e)) :
    runW sink enc (writesNode s false false (.document [] (c :: rest))) out = (fail, some e) ∧
    (∀ (m : List (Str × Str)) (cs : List Node) (out2 e2 : Str),
      enc m = Except.error e2 → m.length ≠ 0 → sink out2.length = true →
      runW sink enc (writesNode s false false (.document m cs)) out2 =
        (out2 ++ "---\n".data, some e2)) ∧
    (∀ (es : List WEvent) (out3 : Str), ∃ t, (runW sink enc es out3).1 = out3 ++ t) := by
  refine ⟨?doc, ?meta, fun es out3 => runW_extends sink enc es out3⟩
  case doc =>
    have hw : writesNode s false false (Node.document [] (c :: rest)) =
        writesNode s false (!rest.isEmpty) c ++ writesList s (some c) rest := by
      simp [writesNode, writesList]
    rw [hw]
    exact runW_append_err sink enc _ _ out fail e h
  case meta =>
    intro m cs out2 e2 hm hmne hs
    have hw : writesNode s false false (Node.document m cs) =
        [.str "---\n".data, .yaml m, .str "---\n".data] ++ writesList s none cs := by
      simp [writesNode, hmne]
    rw [hw]
    simp [runW, hs, hm]

/-- Witness for C2 at a concrete input: a sink that fails after four bytes
aborts a two-child document inside the first paragraph, returning the write
error with only the accepted prefix written. -/
theorem c2_write_failure_aborts_witness :
    runW (fun k => decide (k < 4)) (fun m => Except.ok (yamlEncode m))
      (writesNode defaultSettings false false
        (.document [] [.paragraph [] [.strNode "abcdef".data false], .thematicBreak []])) [] =
      ("abcdef".data, some writeErr) :=
  (c2_write_failure_aborts defaultSettings (fun k => decide (k < 4))
    (fun m => Except.ok (yamlEncode m))
    (.paragraph [] [.strNode "abcdef".data false]) [.thematicBreak []] [] "abcdef".data writeErr
    (by simp [writesNode, writesList, runW, writeAttrEvents])).1

/-- Claim C10: rendering is deterministic — for a fixed settings record,
node tree and (well-behaved) metadata encoder, two `Render` calls into any
two error-free sinks append exactly the same byte sequence, namely
`render s n`, and return no error; the output depends on nothing else. -/
theorem c10_render_deterministic (s : Settings) (enc : Enc) (n : Node) (st : Str)
    (sink1 sink2 : Sink) (h1 : ∀ k, sink1 k = true) (h2 : ∀ k, sink2 k = true)
    (henc : ∀ m, enc m = Except.ok (yamlEncode m)) :
    runW sink1 enc (writesNode s false false n) st = (st ++ render s n, none) ∧
    runW sink2 enc (writesNode s false false n) st = (st ++ render s n, none) :=
  ⟨runW_all_ok sink1 enc h1 henc _ st, runW_all_ok sink2 enc h2 henc _ st⟩

/-- Witness for C10 at a concrete input: two error-free sinks receive the
same bytes for a small document. -/
theorem c10_render_deterministic_witness :
    runW (fun _ => true) (fun m => Except.ok (yamlEncode m))
        (writesNode defaultSettings false false (.emphasis 2 [.strNode "b".data false])) [] =
      ([] ++ render defaultSettings (.emphasis 2 [.strNode "b".data false]), none) ∧
    runW (fun k => decide (k = k)) (fun m => Except.ok (yamlEncode m))
        (writesNode defaultSettings false false (.emphasis 2 [.strNode "b".data false])) [] =
      ([] ++ render defaultSettings (.emphasis 2 [.strNode "b".data false]), none) :=
  c10_render_deterministic defaultSettings (fun m => Except.ok (yamlEncode m))
    (.emphasis 2 [.strNode "b".data false]) [] (fun _ => true) (fun k => decide (k = k))
    (fun _ => rfl) (fun k => by simp) (fun _ => rfl)

/-- Claim C7: an emphasis node writes the canonical delimiter at entry and
exit — `_` when its level is 1, `**` when its level is 2 — purely from the
level; the node does not record which delimiter character the source used,
so the output is independent of it. -/
theorem c7_emphasis_delimiters (s : Settings) (cs : List Node) :
    render s (.emphasis 1 cs) = "_".data ++ renderSeq s cs ++ "_".data ∧
    render s (.emphasis 2 cs) = "**".data ++ renderSeq s cs ++ "**".data := by
  constructor <;>
    simp [render, renderSeq, writesNode, eventsStr_append, eventStr]

theorem foldl_add_map_sum (f : Str → Nat) :
    ∀ (ls : List Str) (a : Nat),
      List.foldl (fun acc l => acc + f l) a ls = a + (ls.map f).sum := by
  intro ls
  induction ls with
  | nil => intro a; simp
  | cons l ls ih => intro a; simp [ih, Nat.add_assoc]

/-- Claim C4: with setext headings enabled, a level-1 or level-2 heading
without attributes emits, after its inline content, a newline, an underline
of `=` (level 1) or `-` (level 2) whose length is the sum of the rune
counts of the heading's right-trimmed source lines in reflow mode, or the
rune count of only the final source line in hard-wrap mode, followed by a
blank line. -/
theorem c4_setext_underline (s : Settings) (srcLines : List Str) (cs : List Node)
    (hstx : s.STXHeader = true) :
    render s (.heading 1 [] srcLines cs) =
      renderSeq s cs ++ '\n' ::
        (List.replicate (if s.LineBreak then ((srcLines.getLast?).getD []).length
          else (srcLines.map (fun l => (trimRightSpaceGm l).length)).sum) '=') ++ "\n\n".data ∧
    render s (.heading 2 [] srcLines cs) =
      renderSeq s cs ++ '\n' ::
        (List.replicate (if s.LineBreak then ((srcLines.getLast?).getD []).length
          else (srcLines.map (fun l => (trimRightSpaceGm l).length)).sum) '-') ++ "\n\n".data := by
  have hfold : srcLines.foldl (fun acc l => acc + (trimRightSpaceGm l).length) 0 =
      (srcLines.map (fun l => (trimRightSpaceGm l).length)).sum := by
    rw [foldl_add_map_sum]; simp
  constructor <;>
    simp [render, renderSeq, writesNode, hstx, eventsStr_append, eventStr, hfold]

/-- Witness for C4: the single source line `"Title"` (5 runes) yields the
underline `=====` at level 1 and `-----` at level 2. -/
theorem c4_setext_underline_witness :
    render defaultSettings (.heading 1 [] ["Title".data] [.text "Title".data false false]) =
      "Title\n=====\n\n".data ∧
    render defaultSettings (.heading 2 [] ["Title".data] [.text "Title".data false false]) =
      "Title\n-----\n\n".data := by
  obtain ⟨h1, h2⟩ :=
    c4_setext_underline defaultSettings ["Title".data] [.text "Title".data false false] rfl
  rw [h1, h2]
  constructor <;>
    simp [renderSeq, writesList, writesNode, eventStr, defaultSettings,
      trimRightSpaceGm, trimRightBy, isGmSpace]

theorem splitAfterNl_ne_nil (t : Str) : splitAfterNl t ≠ [] := by
  induction t with
  | nil => simp [splitAfterNl]
  | cons c rest ih =>
    simp only [splitAfterNl]
    by_cases h : c = '\n'
    · simp [h]
    · simp only [h, if_false]
      cases hs : splitAfterNl rest <;> simp

theorem splitAfterNl_head_nl (t : Str) :
    ∀ l ∈ splitAfterNl t, l.head? = some '\n' → l = ['\n'] := by
  induction t with
  | nil =>
    intro l hl hh
    simp [splitAfterNl] at hl
    subst hl; simp at hh
  | cons c rest ih =>
    intro l hl hh
    by_cases h : c = '\n'
    · subst h
      simp only [splitAfterNl, if_pos rfl] at hl
      rcases List.mem_cons.mp hl with h1 | h2
      · exact h1
      · exact ih l h2 hh
    · simp only [splitAfterNl, h, if_false] at hl
      cases hs : splitAfterNl rest with
      | nil => exact absurd hs (splitAfterNl_ne_nil rest)
      | cons l0 ls0 =>
        rw [hs] at hl
        rcases List.mem_cons.mp hl with h1 | h2
        · subst h1; simp at hh; exact absurd hh h
        · exact ih l (by rw [hs]; exact List.mem_cons_of_mem _ h2) hh

theorem eventsStr_bqLineEvents (lines : List Str) :
    eventsStr (bqLineEvents lines) =
      concatL (lines.map (fun l =>
        ['>'] ++ (if l ≠ [] ∧ l.head? ≠ some '>' ∧ l.head? ≠ some '\n' then [' '] else []) ++ l)) := by
  induction lines with
  | nil => rfl
  | cons l ls ih =>
    by_cases hc : l ≠ [] ∧ l.head? ≠ some '>' ∧ l.head? ≠ some '\n' <;>
      simp [bqLineEvents, hc, eventsStr_append, eventStr, concatL_append] <;>
      simpa [bqLineEvents] using ih

/-- Claim C8: a blockquote pre-renders its children once into a scratch
buffer, trims the buffer, splits it into terminator-preserving lines, and
writes every line prefixed by `>` plus one space, the space being omitted
exactly when the line already starts with `>` or the line is empty (no
content before its terminator: by the split's shape, a line whose first
character is `'\n'` is exactly `"\n"`); the children are skipped by the
dispatch and never rendered again. -/
theorem c8_blockquote_prefixing (s : Settings) (cs : List Node) :
    render s (.blockquote [] cs) =
      concatL ((splitAfterNl (trimSpaceUni (renderSeq s cs))).map (fun l =>
        ['>'] ++ (if l ≠ [] ∧ l.head? ≠ some '>' ∧ l.head? ≠ some '\n' then [' '] else []) ++ l)) ++
      "\n\n".data ∧
    ∀ l ∈ splitAfterNl (trimSpaceUni (renderSeq s cs)),
      (¬(l ≠ [] ∧ l.head? ≠ some '>' ∧ l.head? ≠ some '\n') ↔
        (l.head? = some '>' ∨ l = [] ∨ l = ['\n'])) := by
  constructor
  · simp [render, renderSeq, writesNode, eventsStr_append, eventStr, eventsStr_bqLineEvents]
  · intro l hl
    constructor
    · intro hn
      by_cases h0 : l = []
      · exact Or.inr (Or.inl h0)
      · by_cases h1 : l.head? = some '>'
        · exact Or.inl h1
        · have h2 : l.head? = some '\n' := by
            by_contra h2
            exact hn ⟨h0, h1, h2⟩
          exact Or.inr (Or.inr (splitAfterNl_head_nl _ l hl h2))
    · intro h hx
      rcases h with h | h | h
      · exact hx.2.1 h
      · exact hx.1 h
      · subst h; simp at hx

/-- Witness for C8: a blockquote over one paragraph renders with the `> `
prefix. -/
theorem c8_blockquote_prefixing_witness :
    render defaultSettings (.blockquote [] [.paragraph [] [.strNode "a".data false]]) =
      "> a\n\n".data := by
  rw [(c8_blockquote_prefixing defaultSettings [.paragraph [] [.strNode "a".data false]]).1]
  simp [renderSeq, writesList, writesNode, eventStr, defaultSettings, trimSpaceUni,
    trimRightBy, isUniSpace, splitAfterNl]

/-- Claim C6: a String node's value undergoes entity replacement exactly
when the node is code-flagged (and the table is non-empty, which holds for
the default table): a `&` + five-letter + `;` reference that is a key of
the table is replaced by its value and scanning resumes after it, a
reference missing from the table passes through, and outside code flags
the value is written verbatim — e.g. `&mdash;` becomes `---` in code
content and stays `&mdash;` in plain content. -/
theorem c6_entity_replacement_iff_code :
    (∀ (s : Settings) (v : Str), render s (.strNode v false) = v) ∧
    (∀ (s : Settings) (v : Str), s.EntityReplacement.length ≠ 0 →
      render s (.strNode v true) = replaceEntities s.EntityReplacement v) ∧
    (∀ (table : EntTable) (w rest : Str), w.length = 5 → w.all isAsciiAlpha = true →
      replaceEntities table ('&' :: w ++ ';' :: rest) =
        ((entLookup table ('&' :: w ++ [';'])).getD ('&' :: w ++ [';'])) ++
          replaceEntities table rest) ∧
    render defaultSettings (.strNode "&mdash;".data true) = "---".data ∧
    render defaultSettings (.strNode "&mdash;".data false) = "&mdash;".data ∧
    render defaultSettings (.strNode "&zzzzz;".data true) = "&zzzzz;".data := by
  refine ⟨?verbatim, ?code, ?fiveLetter, ?mdash, ?mdashPlain, ?missing⟩
  case verbatim => intro s v; simp [render, writesNode, eventStr]
  case code => intro s v h; simp [render, writesNode, eventStr, h]
  case fiveLetter =>
    intro table w rest hw ha
    have htake6 : (w ++ ';' :: rest).take 6 = w ++ [';'] := by
      rw [show 6 = w.length + 1 by omega, List.take_append]
      simp
    have hall6 : ((w ++ ';' :: rest).take 6).all isAsciiAlpha = false := by
      rw [htake6]
      simp [isAsciiAlpha]
    have htake5 : (w ++ ';' :: rest).take 5 = w := by
      rw [show 5 = w.length by omega]
      exact List.take_left w _
    have hget5 : (w ++ ';' :: rest)[5]? = some ';' := by
      rw [show 5 = w.length by omega, List.getElem?_append_right (Nat.le_refl _)]
      simp
    have hdrop6 : (w ++ ';' :: rest).drop 6 = rest := by
      rw [show 6 = w.length + 1 by omega, List.drop_append]
      simp
    rw [replaceEntities.eq_def]
    split
    next heq => exact absurd heq (by simp)
    next c r2 heq =>
      obtain ⟨hc, hr⟩ : c = '&' ∧ r2 = w ++ ';' :: rest := by
        constructor <;> (injection heq with h1 h2; first | exact h1.symm | exact h2.symm)
      subst hc hr
      rw [if_neg (by simp [hall6]), if_pos (by simp [htake5, hget5, hw, ha])]
      rw [htake5, hdrop6]
      cases hl : entLookup table ('&' :: w ++ [';']) <;> simp [hl]
  case mdash =>
    simp [render, writesNode, eventStr, defaultSettings, replaceEntities,
      defaultEntityReplacement, entLookup, isAsciiAlpha]
  case mdashPlain => simp [render, writesNode, eventStr]
  case missing =>
    simp [render, writesNode, eventStr, defaultSettings, replaceEntities,
      defaultEntityReplacement, entLookup, isAsciiAlpha]

/-- Witness for C6: the code-flag branch applied at the non-empty default
table. -/
theorem c6_entity_replacement_iff_code_witness :
    render defaultSettings (.strNode "&ndash;".data true) =
      replaceEntities defaultSettings.EntityReplacement "&ndash;".data :=
  c6_entity_replacement_iff_code.2.1 defaultSettings "&ndash;".data (by decide)

/-- Counterexample to claim C5 as stated: `writeAttributes` in `render.go`
formats every `name="value"` token with its own trailing space and performs
no trimming, so for a node carrying an `id` and one further attribute the
emitted block ends in a space before the closing brace — it is not the
claimed trimmed single-space-joined form (which `renderAttributes` in
`renderer.go` does produce). -/
theorem c5_attribute_block_counterexample :
    writeAttributesStr [("id".data, "a".data), ("k".data, "v".data)] =
      "\x7b#a k=\"v\" \x7d".data ∧
    attrBlockSpec [("id".data, "a".data), ("k".data, "v".data)] =
      "\x7b#a k=\"v\"\x7d".data ∧
    writeAttributesStr [("id".data, "a".data), ("k".data, "v".data)] ≠
      attrBlockSpec [("id".data, "a".data), ("k".data, "v".data)] ∧
    render defaultSettings (.thematicBreak [("id".data, "a".data), ("k".data, "v".data)]) =
      "----\x7b#a k=\"v\" \x7d\n\n\n".data := by
  refine ⟨by decide, by decide, by decide, ?_⟩
  simp [render, writesNode, eventStr, defaultSettings]
  decide

theorem concatStrs_append (a b : List Str) :
    concatStrs (a ++ b) = concatStrs a ++ concatStrs b := by
  induction a with
  | nil => rfl
  | cons x xs ih => simp [concatStrs] at *; simp [ih]

theorem concat_spaces_eq (ts : List Str) :
    concatStrs (ts.map (fun t => t ++ [' '])) =
      joinSep [' '] ts ++ (if ts = [] then [] else [' ']) := by
  induction ts with
  | nil => rfl
  | cons t ts ih =>
    cases ts with
    | nil => simp [concatStrs, joinSep]
    | cons y ys =>
      simp only [List.map_cons, concatStrs, List.foldr_cons, joinSep] at *
      simp [ih, List.append_assoc]

theorem trimRight_append_space (s : Str) :
    trimRightSpaceGm (s ++ [' ']) = trimRightSpaceGm s := by
  simp [trimRightSpaceGm, trimRightBy, List.reverse_append, List.dropWhile, isGmSpace]

theorem trimRight_concat_spaces (ts : List Str) :
    trimRightSpaceGm (concatStrs (ts.map (fun t => t ++ [' ']))) =
      trimRightSpaceGm (joinSep [' '] ts) := by
  rw [concat_spaces_eq]
  by_cases h : ts = []
  · simp [h]
  · simp [h, trimRight_append_space]

/-- Claim C5 as amended: the trimmed, single-space-joined attribute block
of the claim is exactly what `renderAttributes` in `renderer.go` emits, for
every attribute set; `writeAttributes` in `render.go` instead keeps the
trailing space of each `name="value"` token and does not trim (see the
counterexample). -/
theorem foldr_append_init (A B : List Str) :
    List.foldr (fun a b => a ++ b) (List.foldr (fun a b => a ++ b) [] B) A =
      List.foldr (fun a b => a ++ b) [] A ++ List.foldr (fun a b => a ++ b) [] B := by
  induction A with
  | nil => rfl
  | cons x xs ih => simp [ih]

theorem c5_attribute_block_amended (attrs : Attrs) :
    renderAttributesStr attrs = attrBlockSpec attrs := by
  simp only [renderAttributesStr, attrBlockSpec]
  rw [← trimRight_concat_spaces]
  congr 2
  cases hid : attributeString attrs idKey <;> cases hcl : attributeString attrs classKey <;>
    simp [hid, hcl, concatStrs, List.map_append, List.map_map, Function.comp_def,
      List.foldr_append, foldr_append_init, List.append_assoc]

/-- Rune count of the cell at column `j` of a row; a row with no `j`-th
cell contributes nothing. -/
def cellLenAt (r : List Str) (j : Nat) : Nat := ((r[j]?).getD []).length

/-- Modelled from the claim's words: `W[j]`, the maximum rune count over
all rows of the pre-rendered cell text of column `j`. -/
def colMaxSpec (rows : List (List Str)) (j : Nat) : Nat :=
  rows.foldl (fun m r => max m (cellLenAt r j)) 0

theorem rowBump_length (r : List Str) : ∀ (cols : List Nat) (j0 : Nat),
    (rowBump cols j0 r).length = cols.length := by
  induction r with
  | nil => intro cols j0; rfl
  | cons c cs ih =>
    intro cols j0
    simp only [rowBump]
    rw [ih]
    split <;> simp [List.length_set]

theorem getD_set_max (cols : List Nat) (j0 v : Nat) (hj : j0 < cols.length) :
    (if cols.getD j0 0 < v then cols.set j0 v else cols).getD j0 0 =
      max (cols.getD j0 0) v := by
  split
  next hlt =>
    rw [List.getD_eq_getElem?_getD, List.getElem?_set_eq_of_lt _ hj, Option.getD_some]
    exact (Nat.max_eq_right (Nat.le_of_lt hlt)).symm
  next hge => exact (Nat.max_eq_left (by omega)).symm

theorem getD_set_other (cols : List Nat) (j0 j v : Nat) (hne : j ≠ j0) :
    (if cols.getD j0 0 < v then cols.set j0 v else cols).getD j 0 = cols.getD j 0 := by
  split
  · rw [List.getD_eq_getElem?_getD, List.getElem?_set_ne (fun h => hne h.symm),
      ← List.getD_eq_getElem?_getD]
  · rfl

theorem rowBump_getD (r : List Str) : ∀ (cols : List Nat) (j0 j : Nat), j < cols.length →
    (rowBump cols j0 r).getD j 0 =
      if j0 ≤ j ∧ j - j0 < r.length then max (cols.getD j 0) (cellLenAt r (j - j0))
      else cols.getD j 0 := by
  induction r with
  | nil => intro cols j0 j hj; simp [rowBump]
  | cons c cs ih =>
    intro cols j0 j hj
    have hlen : (if cols.getD j0 0 < c.length then cols.set j0 c.length else cols).length
        = cols.length := by
      split <;> simp [List.length_set]
    rw [rowBump, ih _ (j0 + 1) j (by rw [hlen]; exact hj)]
    simp only [List.length_cons]
    by_cases hjj : j = j0
    · subst hjj
      rw [if_neg (by omega : ¬(j + 1 ≤ j ∧ j - (j + 1) < cs.length)),
        getD_set_max cols j c.length hj,
        if_pos (by omega : j ≤ j ∧ j - j < cs.length + 1)]
      simp [cellLenAt]
    · rw [getD_set_other cols j0 j c.length hjj]
      by_cases hlt : j < j0
      · rw [if_neg (by omega : ¬(j0 + 1 ≤ j ∧ j - (j0 + 1) < cs.length)),
          if_neg (by omega : ¬(j0 ≤ j ∧ j - j0 < cs.length + 1))]
      · by_cases hin : j - (j0 + 1) < cs.length
        · rw [if_pos (by omega : j0 + 1 ≤ j ∧ j - (j0 + 1) < cs.length),
            if_pos (by omega : j0 ≤ j ∧ j - j0 < cs.length + 1)]
          have hsub : j - j0 = (j - (j0 + 1)) + 1 := by omega
          congr 1
          simp [cellLenAt, hsub]
        · rw [if_neg (by omega : ¬(j0 + 1 ≤ j ∧ j - (j0 + 1) < cs.length)),
            if_neg (by omega : ¬(j0 ≤ j ∧ j - j0 < cs.length + 1))]

theorem tableColumns_getD (alignments : List Align) (rows : List (List Str)) (j : Nat)
    (hj : j < alignments.length) :
    (tableColumns alignments rows).getD j 0 = colMaxSpec rows j := by
  suffices h : ∀ (rws : List (List Str)) (cols : List Nat), j < cols.length →
      (rws.foldl (fun cols row => rowBump cols 0 row) cols).getD j 0 =
        rws.foldl (fun m r => max m (cellLenAt r j)) (cols.getD j 0) by
    have hr := h rows (List.replicate alignments.length 0) (by simp [hj])
    rw [tableColumns, colMaxSpec, hr]
    congr 1
    simp [List.getD_eq_getElem?_getD, List.getElem?_replicate, hj]
  intro rws
  induction rws with
  | nil => intro cols hc; simp
  | cons r rs ih =>
    intro cols hc
    simp only [List.foldl_cons]
    rw [ih (rowBump cols 0 r) (by rw [rowBump_length]; exact hc)]
    congr 1
    rw [rowBump_getD r cols 0 j hc]
    by_cases hrl : j < r.length
    · simp [hrl]
    · simp only [Nat.zero_le, Nat.sub_zero, hrl, and_false, if_false]
      have : cellLenAt r j = 0 := by
        simp [cellLenAt, List.getElem?_eq_none (by omega : r.length ≤ j)]
      omega

theorem foldl_max_init_le (j : Nat) : ∀ (rws : List (List Str)) (init : Nat),
    init ≤ rws.foldl (fun m r => max m (cellLenAt r j)) init := by
  intro rws
  induction rws with
  | nil => intro init; simp
  | cons r rs ih =>
    intro init
    calc init ≤ max init (cellLenAt r j) := Nat.le_max_left _ _
    _ ≤ _ := ih _

theorem cellLen_le_colMaxSpec (rows : List (List Str)) (r : List Str) (j : Nat)
    (hr : r ∈ rows) : cellLenAt r j ≤ colMaxSpec rows j := by
  rw [colMaxSpec]
  suffices h : ∀ (rws : List (List Str)) (init : Nat), r ∈ rws →
      cellLenAt r j ≤ rws.foldl (fun m q => max m (cellLenAt q j)) init from h rows 0 hr
  intro rws
  induction rws with
  | nil => intro init h; simp at h
  | cons q qs ih =>
    intro init h
    rcases List.mem_cons.mp h with h1 | h2
    · subst h1
      calc cellLenAt r j ≤ max init (cellLenAt r j) := Nat.le_max_right _ _
      _ ≤ _ := foldl_max_init_le j qs _
    · exact ih _ h2

/-- Claim C3: in a rendered table, the segment emitted for the cell at
column `j` of any row (`"| "`, the cell padded to the column width by its
alignment, one trailing space) occupies exactly `W[j] + 3` runes, where
`W[j]` — the `tableColumns` width the renderer computes — equals the
maximum rune count over all rows of the pre-rendered cell text of column
`j`; left/default alignment pads on the right, right alignment on the
left, and centring splits the padding with the smaller half on the left.
The hypothesis that no row is wider than the alignment array is the
renderer's own no-panic precondition. -/
theorem c3_table_cell_width (alignments : List Align) (rows : List (List Str))
    (r : List Str) (j : Nat) (cell : Str) (W : Nat)
    (hr : r ∈ rows) (hc : r[j]? = some cell)
    (hrows : ∀ q ∈ rows, q.length ≤ alignments.length)
    (hW : W = (tableColumns alignments rows).getD j 0) :
    (cellSegment (alignments.getD j Align.none) W cell).length = W + 3 ∧
    W = colMaxSpec rows j ∧
    cellSegment Align.right W cell =
      "| ".data ++ List.replicate (W - cell.length) ' ' ++ cell ++ [' '] ∧
    cellSegment Align.center W cell =
      "| ".data ++ List.replicate ((W - cell.length) / 2) ' ' ++ cell ++
        List.replicate ((W - cell.length) - (W - cell.length) / 2) ' ' ++ [' '] ∧
    (W - cell.length) / 2 ≤ (W - cell.length) - (W - cell.length) / 2 ∧
    cellSegment Align.left W cell =
      "| ".data ++ cell ++ List.replicate (W - cell.length) ' ' ++ [' '] := by
  have hjr : j < r.length := by
    by_contra hn
    rw [List.getElem?_eq_none (by omega : r.length ≤ j)] at hc
    exact Option.noConfusion hc
  have hj : j < alignments.length := Nat.lt_of_lt_of_le hjr (hrows r hr)
  have hWmax : W = colMaxSpec rows j := by rw [hW, tableColumns_getD _ _ _ hj]
  have hcw : cell.length ≤ W := by
    rw [hWmax]
    have := cellLen_le_colMaxSpec rows r j hr
    rwa [cellLenAt, hc, Option.getD_some] at this
  have hhalf : (W - cell.length) / 2 ≤ (W - cell.length) - (W - cell.length) / 2 := by omega
  refine ⟨?len, hWmax, ?right, ?center, hhalf, ?left⟩
  case len =>
    cases halign : alignments.getD j Align.none <;>
      simp [cellSegment, List.length_append, List.length_replicate, List.length_take,
        List.length_drop] <;> omega
  case right => simp [cellSegment]
  case center =>
    have hmin : min ((W - cell.length) / 2) (W - cell.length) = (W - cell.length) / 2 := by
      omega
    simp [cellSegment, List.take_replicate, List.drop_replicate, List.length_replicate,
      hmin, List.append_assoc]
  case left => simp [cellSegment]

/-- Witness for C3 at a concrete table: two rows, two columns, the wide
cell `"wide"` fixes `W[1] = 4`. -/
theorem c3_table_cell_width_witness :
    (cellSegment ([Align.left, Align.none].getD 1 Align.none)
        ((tableColumns [Align.left, Align.none] [["ab".data, "x".data], ["c".data, "wide".data]]).getD 1 0)
        "x".data).length =
      (tableColumns [Align.left, Align.none] [["ab".data, "x".data], ["c".data, "wide".data]]).getD 1 0 + 3 :=
  (c3_table_cell_width [Align.left, Align.none] [["ab".data, "x".data], ["c".data, "wide".data]]
    ["ab".data, "x".data] 1 "x".data _ (by decide) (by decide) (by decide) rfl).1

/-- Modelled from the claim's words (C9): every line after the first of an
item's trimmed pre-rendered content carries the full indent,
unconditionally — for comparison with the code's `itemLineEvents`, which
skips the indent for lines with no content before their terminator. -/
def itemLinesAllInd (indent : Str) : Nat → List Str → Str
  | _, [] => []
  | i, l :: ls => ((if 0 < i then indent else []) ++ l) ++ itemLinesAllInd indent (i + 1) ls

/-- Bytes one list item contributes: ordinal (ordered lists only), marker,
re-indented trimmed content lines, newline, plus a blank line in a loose
list. -/
def itemOutStr (s : Settings) (marker : Char) (ordered isTight : Bool) (indent : Str)
    (num : Nat) (it : Node) : Str :=
  (if ordered then natDec num else []) ++
  (if s.UseListMarker then [marker, ' '] else if ordered then ". ".data else "- ".data) ++
  eventsStr (itemLineEvents indent 0
    (splitAfterNl (trimSpaceUni (renderSeq s it.children)))) ++
  ['\n'] ++ (if ¬isTight then ['\n'] else [])

/-- Counterexample to claim C9 as stated: "every line after the first … is
indented" fails on blank lines.  An unordered tight list whose single item
holds two paragraphs has trimmed content `"a\n\nb"`; the renderer leaves
the middle blank line unindented (`"- a\n\nb…"` modulo the two-space
indent on `b`), while the claim mandates indenting every line after the
first, which would give `"- a\n  \n  b…"`. -/
theorem c9_list_indent_counterexample :
    splitAfterNl (trimSpaceUni (renderSeq defaultSettings
        [Node.paragraph [] [.strNode "a".data false],
         Node.paragraph [] [.strNode "b".data false]])) =
      ["a\n".data, "\n".data, "b".data] ∧
    render defaultSettings (.list '-' 1 true
        [.listItem [.paragraph [] [.strNode "a".data false],
          .paragraph [] [.strNode "b".data false]]]) =
      "- a\n\n  b\n\n".data ∧
    "- ".data ++ itemLinesAllInd "  ".data 0 ["a\n".data, "\n".data, "b".data] ++ "\n".data ++
        "\n".data =
      "- a\n  \n  b\n\n".data ∧
    render defaultSettings (.list '-' 1 true
        [.listItem [.paragraph [] [.strNode "a".data false],
          .paragraph [] [.strNode "b".data false]]]) ≠
      "- ".data ++
        itemLinesAllInd "  ".data 0 (splitAfterNl (trimSpaceUni (renderSeq defaultSettings
          [Node.paragraph [] [.strNode "a".data false],
           Node.paragraph [] [.strNode "b".data false]]))) ++ "\n".data ++ "\n".data := by
  refine ⟨?lines, ?actual, by decide, ?ne⟩
  case lines =>
    simp [renderSeq, writesList, writesNode, eventStr, defaultSettings, trimSpaceUni,
      trimRightBy, isUniSpace, splitAfterNl, Node.isTextBlockNode]
  case actual =>
    simp [render, renderSeq, writesNode, writesList, writesItems, eventStr, defaultSettings,
      isOrderedMarker, trimSpaceUni, trimRightBy, isUniSpace, splitAfterNl, itemLineEvents,
      Node.children, Node.isTextBlockNode]
  case ne =>
    simp [render, renderSeq, writesNode, writesList, writesItems, eventStr, defaultSettings,
      isOrderedMarker, trimSpaceUni, trimRightBy, isUniSpace, splitAfterNl, itemLineEvents,
      Node.children, Node.isTextBlockNode, itemLinesAllInd]

theorem eventsStr_if_str (b : Prop) [Decidable b] (x : Str) :
    eventsStr (if b then [WEvent.str x] else []) = if b then x else [] := by
  split <;> simp [eventStr]

theorem itemLineEvents_zip (indent : Str) : ∀ (lines : List Str) (i : Nat),
    eventsStr (itemLineEvents indent i lines) =
      concatL (((List.range lines.length).zip lines).map
        (fun p => (if 0 < p.1 + i ∧ p.2 ≠ [] ∧ p.2.head? ≠ some '\n' then indent else []) ++
          p.2)) := by
  intro lines
  induction lines with
  | nil => intro i; rfl
  | cons l ls ih =>
    intro i
    rw [itemLineEvents]
    simp only [eventsStr_append, eventsStr_cons, eventsStr_nil, eventStr, eventsStr_if_str]
    rw [ih (i + 1), List.length_cons, List.range_succ_eq_map, List.zip_cons_cons,
      List.map_cons, concatL_cons, List.zip_map_left, List.map_map]
    have hmap : List.map
        ((fun p => (if 0 < p.1 + i ∧ p.2 ≠ [] ∧ p.2.head? ≠ some '\n' then indent else []) ++
          p.2) ∘ Prod.map Nat.succ id) ((List.range ls.length).zip ls) =
        List.map (fun p =>
          (if 0 < p.1 + (i + 1) ∧ p.2 ≠ [] ∧ p.2.head? ≠ some '\n' then indent else []) ++ p.2)
          ((List.range ls.length).zip ls) := by
      apply List.map_congr_left
      intro p hp
      simp only [Function.comp_def, Prod.map_fst, Prod.map_snd, id_eq, Nat.succ_eq_add_one]
      simp only [show p.1 + 1 + i = p.1 + (i + 1) from by omega]
    rw [hmap]
    simp [List.append_assoc]

theorem writesItems_zip (s : Settings) (marker : Char) (ordered isTight : Bool) (indent : Str) :
    ∀ (items : List Node) (num : Nat),
      eventsStr (writesItems s marker ordered isTight indent num items) =
        concatL (((List.range items.length).zip items).map
          (fun p => itemOutStr s marker ordered isTight indent (num + p.1) p.2)) := by
  intro items
  induction items with
  | nil => intro num; simp [writesItems]
  | cons it rest ih =>
    intro num
    rw [writesItems]
    simp only [eventsStr_append, eventsStr_cons, eventsStr_nil, eventsStr_if_str]
    rw [ih (num + 1), List.length_cons, List.range_succ_eq_map, List.zip_cons_cons,
      List.map_cons, concatL_cons, List.zip_map_left, List.map_map]
    have hmap : List.map
        ((fun p => itemOutStr s marker ordered isTight indent (num + p.1) p.2) ∘
          Prod.map Nat.succ id) ((List.range rest.length).zip rest) =
        List.map (fun p => itemOutStr s marker ordered isTight indent (num + 1 + p.1) p.2)
          ((List.range rest.length).zip rest) := by
      apply List.map_congr_left
      intro p hp
      simp only [Function.comp_def, Prod.map_fst, Prod.map_snd, id_eq, Nat.succ_eq_add_one]
      simp only [show num + (p.1 + 1) = num + 1 + p.1 from by omega]
    rw [hmap]
    simp only [apply_ite eventStr]
    simp [itemOutStr, renderSeq, eventStr, List.append_assoc]

/-- Claim C9 as amended: a list's declared start ordinal 0 is normalized to
1; an ordered list (marker `.`) numbers its items `start, start+1, …` with
a three-space continuation indent, an unordered list (marker `-`) uses a
two-space indent; and within an item's trimmed content, a line after the
first is indented exactly when it has content before its terminator —
blank lines are written without the indent (this proviso is what the
counterexample forces). -/
theorem c9_list_indent_amended (s : Settings) :
    (∀ (marker : Char) (isTight : Bool) (cs : List Node),
      render s (.list marker 0 isTight cs) = render s (.list marker 1 isTight cs)) ∧
    (∀ (start : Nat) (isTight : Bool) (items : List Node),
      render s (.list '.' start isTight items) =
        concatL (((List.range items.length).zip items).map
          (fun p => itemOutStr s '.' true isTight "   ".data
            ((if start = 0 then 1 else start) + p.1) p.2)) ++
        (if isTight then ['\n'] else [])) ∧
    (∀ (start : Nat) (isTight : Bool) (items : List Node),
      render s (.list '-' start isTight items) =
        concatL (((List.range items.length).zip items).map
          (fun p => itemOutStr s '-' false isTight "  ".data
            ((if start = 0 then 1 else start) + p.1) p.2)) ++
        (if isTight then ['\n'] else [])) ∧
    (∀ (indent : Str) (lines : List Str),
      eventsStr (itemLineEvents indent 0 lines) =
        concatL (((List.range lines.length).zip lines).map
          (fun p => (if 0 < p.1 ∧ p.2 ≠ [] ∧ p.2.head? ≠ some '\n' then indent else []) ++
            p.2))) := by
  refine ⟨?zero, ?ordered, ?unordered, ?lines⟩
  case zero =>
    intro marker isTight cs
    simp [render, writesNode]
  case ordered =>
    intro start isTight items
    have hord : isOrderedMarker '.' = true := by decide
    simp only [render, writesNode, hord, if_true, eventsStr_append, eventsStr_if_str]
    rw [writesItems_zip]
  case unordered =>
    intro start isTight items
    have hord : isOrderedMarker '-' = false := by decide
    simp only [render, writesNode, hord, Bool.false_eq_true, if_false, eventsStr_append,
      eventsStr_if_str]
    rw [writesItems_zip]
  case lines =>
    intro indent lines
    rw [itemLineEvents_zip]
    simp

end Formatter
